import Mathlib

/-!
Verification of the yzx script-loading front end (src/yzx.mjs).

JavaScript strings are modelled as `List Char`; a Lean literal `"…".data`
denotes the corresponding character list.  The two core components are
embedded directly from the source:

* `transformMarkdown` — the literate extractor (yzx.mjs lines 120–181),
  a line-oriented state machine over the lines of the input obtained by
  splitting on the newline character, exactly as `source.split("\n")` does.
* `importPathOps` — the format resolver `importPath` (lines 89–118) viewed
  through the trace of filesystem/loader operations it performs.  External
  collaborators (the module loader, the TypeScript compiler, file contents)
  are abstract parameters bundled in `Env`; filesystem primitives are
  assumed to succeed (an I/O failure is fatal and out of scope, spec §7).
  `writeAndImport` (lines 82–87) is inlined at its two call sites inside
  `importPathOps` (its op pattern `write · ; inner ; rm ·` appears there
  verbatim); the standalone `writeAndImportOps` is the same function, used
  to model the stdin entry point (lines 61–80).

Node path functions (`extname`, `basename`, `dirname`, `join`,
`parse().dir`, `parse().name`) are not part of the repository; they are
modelled from the documented behaviour of `path.posix`.  `joinL` omits the
normalisation of "." and ".." segments performed by Node `join`: the
segment appended by the resolver is never "." or ".." and contains no
slash, so the final segment of the result — the only part the resolver
ever inspects again — is unaffected.
-/

namespace Yzx

/-- Split a character list at newline characters, as JS `s.split("\n")`:
the result always has one more element than the number of newlines. -/
def splitNl : List Char → List (List Char)
  | [] => [[]]
  | c :: cs =>
    if c = '\n' then [] :: splitNl cs
    else
      match splitNl cs with
      | [] => [[c]]
      | l :: ls => (c :: l) :: ls

/-- Join lines with newline characters, as JS `output.join("\n")`. -/
def joinNl : List (List Char) → List Char
  | [] => []
  | [l] => l
  | l :: l2 :: ls => l ++ '\n' :: joinNl (l2 :: ls)

/-- The extractor states of `transformMarkdown`: the JS string literals
"root", "tab", "js", "bash", "other". -/
inductive MdState
  | root
  | tab
  | js
  | bash
  | other
deriving DecidableEq

/-- The JS regex test `/^( {4}|\t)/.test(line)`: the line starts with four
spaces or with a tab. -/
def indentStart4 (l : List Char) : Bool :=
  "    ".data.isPrefixOf l || "\t".data.isPrefixOf l

/-- The JS regex test `/^( +|\t)/.test(line)`: the line starts with at
least one space or with a tab. -/
def spaceStart (l : List Char) : Bool :=
  " ".data.isPrefixOf l || "\t".data.isPrefixOf l

/-- `"// " + line`, the comment prefixing of prose lines. -/
def commentOut (l : List Char) : List Char := "// ".data ++ l

/-- One line of the `transformMarkdown` loop: given the current state, the
`prevLineIsEmpty` flag and the line, produce the pushed output line, the
next state and the next flag.  Mirrors the `switch` of yzx.mjs
lines 125–178; the flag is written only in the final `else` of the "root"
case, exactly as in the source. -/
def mdStep : MdState → Bool → List Char → List Char × MdState × Bool
  | .root, pe, l =>
    if indentStart4 l && pe then (l, .tab, pe)
    else if l = "```js".data ∨ l = "```javascript".data then ([], .js, pe)
    else if l = "```sh".data ∨ l = "```bash".data then ("await $`".data, .bash, pe)
    else if "```".data.isPrefixOf l then ([], .other, pe)
    else (commentOut l, .root, l.isEmpty)
  | .tab, pe, l =>
    if spaceStart l then (l, .tab, pe)
    else if l = [] then ([], .tab, pe)
    else (commentOut l, .root, pe)
  | .js, pe, l =>
    if l = "```".data then ([], .root, pe) else (l, .js, pe)
  | .bash, pe, l =>
    if l = "```".data then ("`".data, .root, pe) else (l, .bash, pe)
  | .other, pe, l =>
    if l = "```".data then ([], .root, pe) else (commentOut l, .other, pe)

/-- Fold `mdStep` over the lines, returning the output lines together with
the final state and flag. -/
def mdRun : MdState → Bool → List (List Char) → List (List Char) × MdState × Bool
  | st, pe, [] => ([], st, pe)
  | st, pe, l :: ls =>
    let step := mdStep st pe l
    let rest := mdRun step.2.1 step.2.2 ls
    (step.1 :: rest.1, rest.2)

/-- `transformMarkdown` of yzx.mjs lines 120–181: split into lines, run the
state machine from state "root" with `prevLineIsEmpty = true`, join with
newlines. -/
def transformMarkdown (s : List Char) : List Char :=
  joinNl (mdRun .root true (splitNl s)).1

/-- The state the extractor is left in after consuming a whole document. -/
def finalMdState (s : List Char) : MdState :=
  (mdRun .root true (splitNl s)).2.1

/-- The three fenced states of the extractor. -/
def isFenced : MdState → Bool
  | .js => true
  | .bash => true
  | .other => true
  | _ => false

/-- Number of fence openings the extractor recognises over the given lines:
transitions from a non-fenced state into a fenced state. -/
def fenceOpens : MdState → Bool → List (List Char) → Nat
  | _, _, [] => 0
  | st, pe, l :: ls =>
    let step := mdStep st pe l
    (if isFenced st = false ∧ isFenced step.2.1 = true then 1 else 0) +
      fenceOpens step.2.1 step.2.2 ls

/-- Number of fence closings the extractor performs over the given lines:
transitions from a fenced state back to a non-fenced state. -/
def fenceCloses : MdState → Bool → List (List Char) → Nat
  | _, _, [] => 0
  | st, pe, l :: ls =>
    let step := mdStep st pe l
    (if isFenced st = true ∧ isFenced step.2.1 = false then 1 else 0) +
      fenceCloses step.2.1 step.2.2 ls

/-- 1 on the fenced states, 0 elsewhere; the accounting device for the
fence-balance invariant. -/
def fencedBit (st : MdState) : Nat := if isFenced st then 1 else 0

/-- Modelled from the spec: "every opening fence has a matching closing
fence" read syntactically over the document lines — a line starting with
the fence marker opens a block when outside one, and a bare fence line
closes it.  `fenceBalanced false lines` is true when the scan ends outside
any block. -/
def fenceBalanced : Bool → List (List Char) → Bool
  | inF, [] => !inF
  | false, l :: ls => fenceBalanced ("```".data.isPrefixOf l) ls
  | true, l :: ls => fenceBalanced (if l = "```".data then false else true) ls

/-- Modelled from the spec: a document is well formed when its fence
markers balance. -/
def wellFormedFences (s : List Char) : Bool :=
  fenceBalanced false (splitNl s)

/-! ### Node path functions (POSIX), modelled from their documented
behaviour.  `basenameL p` is the last nonempty path segment (trailing
slashes ignored), `extOfBase` the dot-suffix logic Node applies to it. -/

/-- Node `path.posix.basename(p)` (one-argument form): strip trailing
slashes, then take the characters after the last remaining slash. -/
def basenameL (p : List Char) : List Char :=
  ((p.reverse.dropWhile (fun c => c == '/')).takeWhile (fun c => c != '/')).reverse

/-- The extension of a path segment, per Node `extname`: the suffix from
the last dot, except that there is no extension when the segment has no
dot, when the only dot is its first character, or when the segment is
exactly "..". -/
def extOfBase (b : List Char) : List Char :=
  let pre := b.reverse.takeWhile (fun c => c != '.')
  if pre.length + 1 < b.length ∧ b ≠ ['.', '.'] then '.' :: pre.reverse else []

/-- Node `path.extname(p)`: the extension of the last nonempty segment. -/
def extnameL (p : List Char) : List Char :=
  extOfBase (basenameL p)

/-- Node `path.posix.dirname(p)`: everything before the last nonempty
segment, with the documented special cases for the root, for slashless
paths (".") and for a "//" prefix. -/
def dirnameL (p : List Char) : List Char :=
  if p = [] then ['.']
  else
    let hasRoot := p.head? = some '/'
    let scanned := p.reverse.take (p.length - 1)
    let s2 := (scanned.dropWhile (fun c => c == '/')).dropWhile (fun c => c != '/')
    if s2 = [] then (if hasRoot then ['/'] else ['.'])
    else if hasRoot ∧ s2.length = 1 then ['/', '/']
    else p.take s2.length

/-- Node `path.posix.parse(p).dir`: like `dirname`, except that a relative
path with a single segment has dir "" rather than ".". -/
def parseDirL (p : List Char) : List Char :=
  if '/' ∈ p.reverse.dropWhile (fun c => c == '/') then dirnameL p else []

/-- Node `path.posix.parse(p).name`: the last segment with its extension
removed. -/
def parseNameL (p : List Char) : List Char :=
  (basenameL p).take ((basenameL p).length - (extOfBase (basenameL p)).length)

/-- Node `path.posix.join(d, n)` for the resolver's use: concatenate with a
single separator.  Node additionally normalises "." and ".." segments; the
second argument passed by the resolver is a nonempty slash-free segment
that is never "." or "..", so the final segment of the result — the only
part the resolver inspects afterwards — is the same. -/
def joinL (d n : List Char) : List Char :=
  if d = [] then n
  else if d.getLast? = some '/' then d ++ n
  else d ++ '/' :: n

/-- The materialised target path of the extensionless and markdown
branches of `importPath`: `join(dirname(filepath), basename(filepath) +
".mjs")` (yzx.mjs lines 94 and 101). -/
def mjsTarget (fp : List Char) : List Char :=
  joinL (dirnameL fp) (basenameL fp ++ ".mjs".data)

/-- The `outFile` of the TypeScript branch: `join(dir, name + ".mjs")`
with `{dir, name} = parse(filepath)` (yzx.mjs line 107). -/
def tsOut (fp : List Char) : List Char :=
  joinL (parseDirL fp) (parseNameL fp ++ ".mjs".data)

/-- The path of the compiler output renamed by the TypeScript branch:
`join(dir, name + ".js")` (yzx.mjs line 109). -/
def tsJsOut (fp : List Char) : List Char :=
  joinL (parseDirL fp) (parseNameL fp ++ ".js".data)

/-! ### The format resolver -/

/-- The branch `importPath` (yzx.mjs lines 89–118) takes for a given path:
the extensionless raw-script branch, the markdown branch, the TypeScript
branch, or the terminal fall-through that calls `import()`. -/
inductive ImportAction
  | raw
  | markdown
  | typescript
  | moduleLoad
deriving DecidableEq

/-- The dispatch of `importPath`: three extension equality tests in source
order, falling through to the terminal `import()` step for every other
extension. -/
def importDispatch (fp : List Char) : ImportAction :=
  if extnameL fp = [] then .raw
  else if extnameL fp = ".md".data then .markdown
  else if extnameL fp = ".ts".data then .typescript
  else .moduleLoad

/-- The path a transforming step of `importPath` recurses on, when one
applies: the extensionless and markdown branches materialise
`join(dirname(p), basename(p) + ".mjs")`, the TypeScript branch renames
the compiler output to `join(parse(p).dir, parse(p).name + ".mjs")`.  The
terminal branch recurses on nothing. -/
def nextPath (fp : List Char) : Option (List Char) :=
  match importDispatch fp with
  | .raw => some (mjsTarget fp)
  | .markdown => some (mjsTarget fp)
  | .typescript => some (tsOut fp)
  | .moduleLoad => none

/-- The filesystem/loader operations the resolver performs, in program
order of their initiation. -/
inductive FsOp
  | read (p : List Char)
  | write (p content : List Char)
  | rm (p : List Char)
  | rename (src dst : List Char)
  | compile (p : List Char)
  | load (p filename dirname : List Char)
deriving DecidableEq

/-- How a resolver invocation ends: normally, with a propagated failure, or
with the `process.exit(1)` inside `compile` on a compiler failure. -/
inductive RunResult
  | ok
  | failed
  | exited
deriving DecidableEq

/-- The external collaborators of the resolver: whether the final
`import()` of a path succeeds, whether `tsc` succeeds on a path, the
content read from a path, and Node `path.resolve`. -/
structure Env where
  loadOk : List Char → Bool
  tscOk : List Char → Bool
  contentOf : List Char → List Char
  resolvePath : List Char → List Char

/-- The trace of `importPath(fp, origin)` (yzx.mjs lines 89–118), with
`writeAndImport` (lines 82–87) inlined at its two call sites: its body
performs `writeFile`, starts the recursive `importPath`, awaits `rm`, then
awaits the recursive call, so its ops are `write target · ; inner ;
rm target` and the `rm` is present whether the inner call failed or not.
The fuel argument only bounds the recursion depth; by
`C9_resolution_terminates` the chain takes at most two transforming steps,
so any fuel ≥ 3 is never exhausted. -/
def importPathOps (E : Env) : Nat → List Char → List Char → List FsOp × RunResult
  | 0, _, _ => ([], .failed)
  | fuel+1, fp, origin =>
    match importDispatch fp with
    | .raw =>
      let inner := importPathOps E fuel (mjsTarget fp) origin
      (.read fp :: .write (mjsTarget fp) (E.contentOf fp) :: (inner.1 ++ [.rm (mjsTarget fp)]),
        inner.2)
    | .markdown =>
      let inner := importPathOps E fuel (mjsTarget fp) origin
      (.read fp :: .write (mjsTarget fp) (transformMarkdown (E.contentOf fp)) ::
        (inner.1 ++ [.rm (mjsTarget fp)]), inner.2)
    | .typescript =>
      if E.tscOk fp then
        let inner := importPathOps E fuel (tsOut fp) fp
        (.compile fp :: .rename (tsJsOut fp) (tsOut fp) :: (inner.1 ++ [.rm (tsOut fp)]),
          inner.2)
      else ([.compile fp], .exited)
    | .moduleLoad =>
      ([.load fp (E.resolvePath origin) (dirnameL (E.resolvePath origin))],
        if E.loadOk fp then .ok else .failed)

/-- The trace of `writeAndImport(script, fp, origin)` (yzx.mjs
lines 82–87), used directly by the stdin entry point. -/
def writeAndImportOps (E : Env) (fuel : Nat) (script fp origin : List Char) :
    List FsOp × RunResult :=
  let inner := importPathOps E fuel fp origin
  (.write fp script :: (inner.1 ++ [.rm fp]), inner.2)

/-- The paths an op list materialises: `writeFile` targets and `rename`
destinations. -/
def createdPaths : List FsOp → List (List Char)
  | [] => []
  | .read _ :: rest => createdPaths rest
  | .write p _ :: rest => p :: createdPaths rest
  | .rm _ :: rest => createdPaths rest
  | .rename _ dst :: rest => dst :: createdPaths rest
  | .compile _ :: rest => createdPaths rest
  | .load _ _ _ :: rest => createdPaths rest

/-- How many times an op list deletes a given path. -/
def rmCount (p : List Char) : List FsOp → Nat
  | [] => 0
  | .read _ :: rest => rmCount p rest
  | .write _ _ :: rest => rmCount p rest
  | .rm q :: rest => (if q = p then 1 else 0) + rmCount p rest
  | .rename _ _ :: rest => rmCount p rest
  | .compile _ :: rest => rmCount p rest
  | .load _ _ _ :: rest => rmCount p rest

/-- Effect of one op on file existence (`s q` = "q exists"). -/
def applyOp (s : List Char → Bool) : FsOp → List Char → Bool
  | .write p _ => fun q => if q = p then true else s q
  | .rm p => fun q => if q = p then false else s q
  | .rename src dst => fun q => if q = dst then true else if q = src then false else s q
  | _ => s

/-- Effect of an op list on file existence. -/
def applyOps (s : List Char → Bool) (ops : List FsOp) : List Char → Bool :=
  ops.foldl applyOp s

/-! ## Lemmas about the line splitter and joiner -/

theorem splitNl_ne_nil (s : List Char) : splitNl s ≠ [] := by
  induction s with
  | nil => simp [splitNl]
  | cons c cs ih =>
    simp only [splitNl]
    split
    · simp
    · cases h : splitNl cs <;> simp

theorem splitNl_no_nl (s : List Char) : ∀ l ∈ splitNl s, '\n' ∉ l := by
  induction s with
  | nil =>
    intro l hl
    simp [splitNl] at hl
    simp [hl]
  | cons c cs ih =>
    intro l hl
    simp only [splitNl] at hl
    by_cases hc : c = '\n'
    · simp [hc] at hl
      rcases hl with rfl | hl
      · simp
      · exact ih l hl
    · simp [hc] at hl
      cases h : splitNl cs with
      | nil =>
        rw [h] at hl
        simp at hl
        subst hl
        simp
        exact fun he => hc he.symm
      | cons l0 ls =>
        rw [h] at hl
        simp at hl
        rcases hl with rfl | hl
        · intro hmem
          rcases List.mem_cons.mp hmem with h1 | h1
          · exact hc h1.symm
          · exact ih l0 (h ▸ List.mem_cons_self _ _) h1
        · exact ih l (h ▸ List.mem_cons_of_mem _ hl)

theorem splitNl_single (l : List Char) (h : '\n' ∉ l) : splitNl l = [l] := by
  induction l with
  | nil => rfl
  | cons c cs ih =>
    have hc : ¬ c = '\n' := fun he => h (he ▸ List.mem_cons_self _ _)
    have ih' := ih (fun hm => h (List.mem_cons_of_mem _ hm))
    simp only [splitNl, hc, if_false, ih']

theorem splitNl_append_nl (l t : List Char) (h : '\n' ∉ l) :
    splitNl (l ++ '\n' :: t) = l :: splitNl t := by
  induction l with
  | nil => simp [splitNl]
  | cons c cs ih =>
    have hc : ¬ c = '\n' := fun he => h (he ▸ List.mem_cons_self _ _)
    have ih' := ih (fun hm => h (List.mem_cons_of_mem _ hm))
    have ih2 : splitNl (cs.append ('\n' :: t)) = cs :: splitNl t := ih'
    simp only [List.cons_append, splitNl, hc, if_false, ih', ih2]

theorem splitNl_joinNl (ls : List (List Char)) (h0 : ls ≠ [])
    (h : ∀ l ∈ ls, '\n' ∉ l) : splitNl (joinNl ls) = ls := by
  induction ls with
  | nil => exact absurd rfl h0
  | cons l ls ih =>
    cases ls with
    | nil => exact splitNl_single l (h l (List.mem_cons_self _ _))
    | cons l2 ls2 =>
      have hl : '\n' ∉ l := h l (List.mem_cons_self _ _)
      have hrest : ∀ x ∈ l2 :: ls2, '\n' ∉ x :=
        fun x hx => h x (List.mem_cons_of_mem _ hx)
      simp only [joinNl, splitNl_append_nl _ _ hl, ih (by simp) hrest]

/-! ## Lemmas about the extractor -/

theorem mdRun_length (ls : List (List Char)) :
    ∀ st pe, (mdRun st pe ls).1.length = ls.length := by
  induction ls with
  | nil => intro st pe; rfl
  | cons l ls ih => intro st pe; simp [mdRun, ih]

theorem mdStep_no_nl (st : MdState) (pe : Bool) (l : List Char) (h : '\n' ∉ l) :
    '\n' ∉ (mdStep st pe l).1 := by
  have hcomment : '\n' ∉ commentOut l := by
    simp only [commentOut]
    intro hm
    rcases List.mem_append.mp hm with h1 | h1
    · exact absurd h1 (by decide)
    · exact h h1
  cases st <;> simp only [mdStep] <;> repeat' split
  all_goals first | exact h | exact hcomment | simp

theorem fence_balance_invariant (ls : List (List Char)) :
    ∀ st pe, fenceOpens st pe ls + fencedBit st =
      fenceCloses st pe ls + fencedBit (mdRun st pe ls).2.1 := by
  induction ls with
  | nil => intro st pe; rfl
  | cons l ls ih =>
    intro st pe
    have h := ih (mdStep st pe l).2.1 (mdStep st pe l).2.2
    simp only [fenceOpens, fenceCloses, mdRun]
    cases hst : isFenced st <;> cases hst2 : isFenced (mdStep st pe l).2.1 <;>
      simp [fencedBit, hst, hst2] at h ⊢ <;> omega

theorem mdRun_no_nl (ls : List (List Char)) :
    ∀ st pe, (∀ l ∈ ls, '\n' ∉ l) →
      ∀ o ∈ (mdRun st pe ls).1, '\n' ∉ o := by
  induction ls with
  | nil => intro st pe _ o ho; simp [mdRun] at ho
  | cons l ls ih =>
    intro st pe h o ho
    simp only [mdRun] at ho
    rcases List.mem_cons.mp ho with rfl | ho
    · exact mdStep_no_nl st pe l (h l (List.mem_cons_self _ _))
    · exact ih _ _ (fun x hx => h x (List.mem_cons_of_mem _ hx)) o ho

theorem indentStart4_cons {l : List Char} (h : indentStart4 l = true) :
    ∃ c t, l = c :: t ∧ (c = ' ' ∨ c = '\t') := by
  cases l with
  | nil => exact absurd h (by decide)
  | cons c t =>
    refine ⟨c, t, rfl, ?_⟩
    by_contra hcc
    push_neg at hcc
    have h1 : ("    ".data.isPrefixOf (c :: t) || "\t".data.isPrefixOf (c :: t)) = true := h
    simp [List.isPrefixOf, Ne.symm hcc.1, Ne.symm hcc.2] at h1

/-! ## Claims about the literate extractor -/

/-- Claim C2: `transformMarkdown` is a total function of the input text
(it is a Lean function of `s` alone, hence pure and deterministic), and it
emits exactly one output line per input line: splitting its output on
newlines yields as many lines as splitting the input. -/
theorem C2_line_count (s : List Char) :
    (splitNl (transformMarkdown s)).length = (splitNl s).length := by
  have hlen := mdRun_length (splitNl s) .root true
  have hne : (mdRun .root true (splitNl s)).1 ≠ [] := by
    intro h
    rw [h] at hlen
    exact splitNl_ne_nil s (List.length_eq_zero.mp hlen.symm)
  have hnl : ∀ o ∈ (mdRun .root true (splitNl s)).1, '\n' ∉ o :=
    mdRun_no_nl (splitNl s) .root true (splitNl_no_nl s)
  unfold transformMarkdown
  rw [splitNl_joinNl _ hne hnl]
  exact hlen

/-- Claim C4 (counterexample): on the four-line document of the claim, the
extractor emits the blank prose line as the comment line "// " (the
comment prefix applied to the empty line, yzx.mjs line 141), not as an
empty line, so the output differs from the one the claim states. -/
theorem C4_counterexample :
    transformMarkdown ("Some text\n\n    indented code\nmore text").data =
      ("// Some text\n// \n    indented code\n// more text").data ∧
    ("// Some text\n// \n    indented code\n// more text").data ≠
      ("// Some text\n\n    indented code\n// more text").data := by
  constructor
  · decide
  · decide

/-- Claim C4 (amended): on the document "Some text\n\n    indented
code\nmore text" the extractor comments both prose lines, emits the blank
prose line as "// " (comment prefix plus empty remainder), and emits the
indented line verbatim. -/
theorem C4_amended :
    transformMarkdown ("Some text\n\n    indented code\nmore text").data =
      ("// Some text\n// \n    indented code\n// more text").data := by
  decide

/-- Claim C5: on the document with a sh-tagged fence around "echo hi", the
extractor emits the command-block opener, the body line verbatim, and the
closing backtick. -/
theorem C5_shell_fence :
    transformMarkdown ("```sh\necho hi\n```").data =
      ("await $`\necho hi\n`").data := by
  decide

/-- Claim C6 (counterexample): in the document "```js\n```\n    c" the
third line is processed in the prose state, starts with four spaces, and
its immediately preceding document line "```" is not blank — yet it is
emitted verbatim (the extractor consults its `prevLineIsEmpty` flag, still
true from before the fence, not the actual previous line). -/
theorem C6_counterexample :
    (mdRun .root true ((splitNl ("```js\n```\n    c").data).take 2)).2.1 = MdState.root ∧
    (splitNl ("```js\n```\n    c").data).get? 1 = some ("```").data ∧
    ("```").data ≠ ([] : List Char) ∧
    indentStart4 ("    c").data = true ∧
    (mdRun .root true (splitNl ("```js\n```\n    c").data)).1.get? 2 =
      some ("    c").data ∧
    transformMarkdown ("```js\n```\n    c").data = ("\n\n    c").data := by
  refine ⟨by decide, by decide, by decide, by decide, by decide, by decide⟩

/-- Claim C6 (amended): in the prose state, a line starting with four
spaces or a tab is emitted verbatim (entering the indented-block state)
exactly when the extractor's `prevLineIsEmpty` flag is set, and is
otherwise emitted as a comment; the flag, initially true, is updated only
by lines handled by the plain-prose rule, so it may differ from whether
the literally preceding document line was blank. -/
theorem C6_amended (pe : Bool) (l : List Char) (h : indentStart4 l = true) :
    mdStep .root pe l =
      if pe then (l, MdState.tab, pe) else (commentOut l, MdState.root, false) := by
  cases pe
  · obtain ⟨c, t, rfl, hc⟩ := indentStart4_cons h
    rcases hc with rfl | rfl <;> simp [mdStep, List.isPrefixOf]
  · simp [mdStep, h]

/-- Closed instance of `C6_amended` at the indented line "    x", for both
values of the flag. -/
theorem C6_witness :
    mdStep .root true ("    x").data = (("    x").data, MdState.tab, true) ∧
    mdStep .root false ("    x").data =
      (commentOut ("    x").data, MdState.root, false) := by
  constructor
  · simpa using C6_amended true ("    x").data (by decide)
  · simpa using C6_amended false ("    x").data (by decide)

/-- Claim C7 (counterexample): the document "    a" is well formed (it
contains no fence marker at all), yet the extractor finishes in the
indented-block state, not in the prose state. -/
theorem C7_counterexample :
    wellFormedFences ("    a").data = true ∧
    finalMdState ("    a").data = MdState.tab := by
  constructor
  · decide
  · decide

/-- Claim C7 (amended): the extractor finishes outside the fenced states —
in the prose or indented-block state, and it can finish in the
indented-block state — exactly when the number of fence openings it
recognises equals the number of bare closing fence lines it consumes. -/
theorem C7_amended (s : List Char) :
    fenceOpens .root true (splitNl s) = fenceCloses .root true (splitNl s) ↔
      (finalMdState s = MdState.root ∨ finalMdState s = MdState.tab) := by
  have h := fence_balance_invariant (splitNl s) .root true
  have hroot : fencedBit MdState.root = 0 := rfl
  rw [hroot] at h
  unfold finalMdState
  constructor
  · intro he
    rw [he] at h
    have hbit : fencedBit (mdRun MdState.root true (splitNl s)).2.1 = 0 := by omega
    cases hf : (mdRun MdState.root true (splitNl s)).2.1 <;> rw [hf] at hbit
    · exact Or.inl rfl
    · exact Or.inr rfl
    · exact absurd hbit (by decide)
    · exact absurd hbit (by decide)
    · exact absurd hbit (by decide)
  · intro hf
    rcases hf with hf | hf
    · rw [hf, hroot] at h
      omega
    · rw [hf, show fencedBit MdState.tab = 0 from rfl] at h
      omega

/-! ## Lemmas about the path functions -/

theorem takeWhile_all (p : Char → Bool) {l : List Char} (h : ∀ c ∈ l, p c = true) :
    List.takeWhile p l = l := by
  induction l with
  | nil => rfl
  | cons a t ih =>
    simp [List.takeWhile, h a (List.mem_cons_self _ _),
      ih (fun c hc => h c (List.mem_cons_of_mem _ hc))]

theorem takeWhile_all_append (p : Char → Bool) (x : Char) (l2 : List Char) {l1 : List Char}
    (h1 : ∀ c ∈ l1, p c = true) (hx : p x = false) :
    List.takeWhile p (l1 ++ x :: l2) = l1 := by
  induction l1 with
  | nil => simp [List.takeWhile, hx]
  | cons a t ih =>
    simp [List.takeWhile, h1 a (List.mem_cons_self _ _),
      ih (fun c hc => h1 c (List.mem_cons_of_mem _ hc))]

theorem dropWhile_cons_false (p : Char → Bool) (a : Char) (l : List Char) (h : p a = false) :
    List.dropWhile p (a :: l) = a :: l := by
  simp [List.dropWhile, h]

theorem mem_takeWhile_pred {p : Char → Bool} {l : List Char} {a : Char}
    (h : a ∈ List.takeWhile p l) : p a = true := by
  induction l with
  | nil => simp [List.takeWhile] at h
  | cons b t ih =>
    rw [List.takeWhile_cons] at h
    by_cases hb : p b = true
    · rw [if_pos hb] at h
      rcases List.mem_cons.mp h with rfl | h
      · exact hb
      · exact ih h
    · rw [if_neg hb] at h
      simp at h

theorem basenameL_no_slash (p : List Char) : '/' ∉ basenameL p := by
  intro h
  rw [basenameL, List.mem_reverse] at h
  have := mem_takeWhile_pred h
  simp at this

theorem parseNameL_no_slash (p : List Char) : '/' ∉ parseNameL p := by
  intro h
  exact basenameL_no_slash p (List.take_subset _ _ h)

theorem no_slash_append {m sfx : List Char} (hm : '/' ∉ m) (hs : '/' ∉ sfx) :
    '/' ∉ m ++ sfx := by
  intro h
  rcases List.mem_append.mp h with h | h
  · exact hm h
  · exact hs h

theorem basenameL_of_reverse_decomp (p n rest : List Char) (hn : n ≠ []) (hs : '/' ∉ n)
    (hp : p.reverse = n.reverse ++ '/' :: rest) : basenameL p = n := by
  rw [basenameL, hp]
  obtain ⟨c, nr, hnr⟩ : ∃ c nr, n.reverse = c :: nr := by
    cases hrev : n.reverse with
    | nil => exact absurd (by simpa using hrev) hn
    | cons c nr => exact ⟨c, nr, rfl⟩
  have hcmem : c ∈ n := by
    rw [← List.mem_reverse, hnr]
    exact List.mem_cons_self _ _
  have hcne : (c == '/') = false := by
    simp only [beq_eq_false_iff_ne, ne_eq]
    exact fun he => hs (he ▸ hcmem)
  have hall : ∀ x ∈ n.reverse, (x != '/') = true := by
    intro x hx
    simp only [bne_iff_ne, ne_eq]
    exact fun he => hs (he ▸ List.mem_reverse.mp hx)
  rw [hnr, List.cons_append, dropWhile_cons_false (fun c => c == '/') c (nr ++ '/' :: rest) hcne,
    ← List.cons_append, ← hnr,
    takeWhile_all_append (fun c => c != '/') '/' rest hall (by decide), List.reverse_reverse]

theorem basenameL_slash_free (n : List Char) (hs : '/' ∉ n) : basenameL n = n := by
  cases hn : n with
  | nil => rfl
  | cons c t =>
    subst hn
    rw [basenameL]
    obtain ⟨c2, nr, hnr⟩ : ∃ c2 nr, (c :: t).reverse = c2 :: nr := by
      cases hrev : (c :: t).reverse with
      | nil => exact absurd (List.reverse_eq_nil_iff.mp hrev) (by simp : (c :: t) ≠ [])
      | cons c2 nr => exact ⟨c2, nr, rfl⟩
    have hc2mem : c2 ∈ c :: t := by
      rw [← List.mem_reverse, hnr]
      exact List.mem_cons_self _ _
    have hc2 : (c2 == '/') = false := by
      simp only [beq_eq_false_iff_ne, ne_eq]
      exact fun he => hs (he ▸ hc2mem)
    have hall : ∀ x ∈ (c :: t).reverse, (x != '/') = true := by
      intro x hx
      simp only [bne_iff_ne, ne_eq]
      exact fun he => hs (he ▸ List.mem_reverse.mp hx)
    rw [hnr, dropWhile_cons_false (fun c => c == '/') c2 nr hc2, ← hnr,
      takeWhile_all (fun c => c != '/') hall, List.reverse_reverse]

theorem basenameL_joinL (d n : List Char) (hn : n ≠ []) (hs : '/' ∉ n) :
    basenameL (joinL d n) = n := by
  rw [joinL]
  by_cases hd : d = []
  · rw [if_pos hd]
    exact basenameL_slash_free n hs
  · rw [if_neg hd]
    by_cases hl : d.getLast? = some '/'
    · rw [if_pos hl]
      obtain ⟨dr, hdr⟩ : ∃ dr, d.reverse = '/' :: dr := by
        have hh : d.reverse.head? = some '/' := by rw [List.head?_reverse]; exact hl
        cases hrev : d.reverse with
        | nil => rw [hrev] at hh; simp at hh
        | cons c dr =>
          rw [hrev] at hh
          simp at hh
          exact ⟨dr, by rw [hh]⟩
      exact basenameL_of_reverse_decomp _ n dr hn hs (by rw [List.reverse_append, hdr])
    · rw [if_neg hl]
      refine basenameL_of_reverse_decomp _ n d.reverse hn hs ?_
      rw [List.reverse_append, List.reverse_cons, List.append_assoc]
      simp

theorem append_mjs_ne_nil (m : List Char) : m ++ ".mjs".data ≠ [] := by
  intro h
  have := congrArg List.length h
  simp at this

theorem extOfBase_append_mjs (m : List Char) :
    extOfBase (m ++ ".mjs".data) = if m = [] then [] else ".mjs".data := by
  rw [extOfBase]
  have hrev : (m ++ ".mjs".data).reverse = 's' :: 'j' :: 'm' :: '.' :: m.reverse := by
    simp
  have htw : List.takeWhile (fun c => c != '.') ('s' :: 'j' :: 'm' :: '.' :: m.reverse) =
      ['s', 'j', 'm'] := rfl
  rw [hrev, htw]
  by_cases hm : m = []
  · subst hm
    simp
  · have hm1 : 0 < m.length := List.length_pos.mpr hm
    have h4 : (".mjs".data).length = 4 := rfl
    have hcond : (['s', 'j', 'm'] : List Char).length + 1 < (m ++ ".mjs".data).length ∧
        m ++ ".mjs".data ≠ ['.', '.'] := by
      constructor
      · simp only [List.length_append, h4, List.length_cons, List.length_nil]
        omega
      · intro he
        have hlen := congrArg List.length he
        simp only [List.length_append, h4, List.length_cons, List.length_nil] at hlen
        omega
    rw [if_pos hcond, if_neg hm]
    rfl

theorem extnameL_joinL_mjs (d m : List Char) (hm : '/' ∉ m) :
    extnameL (joinL d (m ++ ".mjs".data)) = if m = [] then [] else ".mjs".data := by
  rw [extnameL,
    basenameL_joinL d _ (append_mjs_ne_nil m) (no_slash_append hm (by decide)),
    extOfBase_append_mjs]

/-! ## Claims about the dispatch of the format resolver -/

/-- Claim C1 (counterexample): a path with the unknown extension ".xyz" is
not rejected by the dispatch of `importPath`; it falls through to the
terminal module-loading branch, and the resolver's trace on it consists of
exactly the `import()` load operation. -/
theorem C1_counterexample :
    importDispatch ("/tmp/a.xyz").data = ImportAction.moduleLoad ∧
    (importPathOps ⟨fun _ => true, fun _ => true, fun _ => [], fun p => p⟩ 1
        ("/tmp/a.xyz").data ("/tmp/a.xyz").data).1 =
      [FsOp.load ("/tmp/a.xyz").data ("/tmp/a.xyz").data ("/tmp").data] := by
  constructor
  · decide
  · decide

/-- Claim C1 (amended): for every source path whose extension is not
empty, not ".md" and not ".ts", the dispatch of `importPath` goes directly
to the terminal module-loading branch — no transformation handler runs and
no Unrecognized Format error is raised by the resolver itself; rejection
of extensions the module loader cannot handle is left to the loader. -/
theorem C1_amended_falls_through_to_loader (fp : List Char)
    (h1 : extnameL fp ≠ []) (h2 : extnameL fp ≠ ".md".data)
    (h3 : extnameL fp ≠ ".ts".data) :
    importDispatch fp = ImportAction.moduleLoad := by
  rw [importDispatch, if_neg h1, if_neg h2, if_neg h3]

/-- Closed instance of `C1_amended_falls_through_to_loader` at a ".json"
path. -/
theorem C1_witness :
    importDispatch ("/tmp/b.json").data = ImportAction.moduleLoad :=
  C1_amended_falls_through_to_loader ("/tmp/b.json").data
    (by decide) (by decide) (by decide)

/-- Claim C10 (counterexample): the dispatch compares the extension
case-sensitively — `extname` does not lowercase — so a ".MD" path is sent
to the terminal module-load branch while a ".md" path is sent to the
literate extractor: they are not dispatched to the same handler. -/
theorem C10_counterexample :
    importDispatch ("/tmp/a.MD").data = ImportAction.moduleLoad ∧
    importDispatch ("/tmp/a.md").data = ImportAction.markdown := by
  constructor
  · decide
  · decide

/-- Claim C10 (amended): extension dispatch is case-sensitive: every path
whose extension is ".MD" is dispatched to the terminal module-load branch,
not to the literate extractor. -/
theorem C10_amended_case_sensitive (fp : List Char) (h : extnameL fp = ".MD".data) :
    importDispatch fp = ImportAction.moduleLoad := by
  rw [importDispatch, h]
  decide

/-- Closed instance of `C10_amended_case_sensitive`. -/
theorem C10_witness :
    importDispatch ("/tmp/a.MD").data = ImportAction.moduleLoad :=
  C10_amended_case_sensitive ("/tmp/a.MD").data (by decide)

/-- Claim C9 (counterexample): a transforming step does not always produce
a path with the executable ".mjs" extension: on the path "/" the
empty-extension step produces "/.mjs", whose extension is again empty, so
the empty extension maps to itself and a second transforming step runs. -/
theorem C9_counterexample :
    nextPath ("/").data = some ("/.mjs").data ∧
    extnameL ("/.mjs").data = [] ∧
    importDispatch ("/.mjs").data = ImportAction.raw := by
  refine ⟨by decide, by decide, by decide⟩

theorem nextPath_some_shape {p q : List Char} (h : nextPath p = some q) :
    ∃ d m, q = joinL d (m ++ ".mjs".data) ∧ '/' ∉ m := by
  rw [nextPath.eq_def] at h
  cases hd : importDispatch p <;> (rw [hd] at h; simp [mjsTarget, tsOut] at h)
  · exact ⟨_, _, h.symm, basenameL_no_slash p⟩
  · exact ⟨_, _, h.symm, basenameL_no_slash p⟩
  · exact ⟨_, _, h.symm, parseNameL_no_slash p⟩

theorem nextPath_mjs_none (d m : List Char) (hm : '/' ∉ m) (hm0 : m ≠ []) :
    nextPath (joinL d (m ++ ".mjs".data)) = none := by
  have he : extnameL (joinL d (m ++ ".mjs".data)) = ".mjs".data := by
    rw [extnameL_joinL_mjs d m hm, if_neg hm0]
  simp only [nextPath, importDispatch]
  rw [he]
  rfl

/-- Claim C9 (amended): the recursive resolution always terminates, in at
most two transforming steps: a transforming step produces a path ending in
".mjs", whose extension is ".mjs" except when the original basename was
empty (the path "/"), in which case exactly one more empty-extension step
runs before the terminal load. -/
theorem C9_resolution_terminates (p q r : List Char)
    (h1 : nextPath p = some q) (h2 : nextPath q = some r) : nextPath r = none := by
  obtain ⟨d, m, rfl, hm⟩ := nextPath_some_shape h1
  by_cases hm0 : m = []
  · subst hm0
    have hbq : basenameL (joinL d ([] ++ ".mjs".data)) = ".mjs".data := by
      simpa using basenameL_joinL d (".mjs".data) (by decide) (by decide)
    have hqe : extnameL (joinL d ([] ++ ".mjs".data)) = [] := by
      rw [extnameL_joinL_mjs d [] (by simp), if_pos rfl]
    have hnq : nextPath (joinL d ([] ++ ".mjs".data)) =
        some (joinL (dirnameL (joinL d ([] ++ ".mjs".data))) (".mjs".data ++ ".mjs".data)) := by
      simp only [nextPath, importDispatch, mjsTarget]
      rw [hqe, hbq]
      rfl
    rw [hnq] at h2
    rw [← Option.some.inj h2]
    exact nextPath_mjs_none _ (".mjs".data) (by decide) (by decide)
  · rw [nextPath_mjs_none d m hm hm0] at h2
    exact absurd h2 (by simp)

/-- Closed instance of `C9_resolution_terminates` on the two-step chain
starting at "/". -/
theorem C9_witness : nextPath ("/.mjs.mjs").data = none :=
  C9_resolution_terminates ("/").data ("/.mjs").data ("/.mjs.mjs").data
    (by decide) (by decide)

/-! ## Lemmas about the resolver trace -/

theorem importDispatch_eq_ts {fp : List Char}
    (h : importDispatch fp = ImportAction.typescript) : extnameL fp = ".ts".data := by
  by_cases h1 : extnameL fp = []
  · rw [importDispatch, if_pos h1] at h
    exact absurd h (by decide)
  by_cases h2 : extnameL fp = ".md".data
  · rw [importDispatch, if_neg h1, if_pos h2] at h
    exact absurd h (by decide)
  by_cases h3 : extnameL fp = ".ts".data
  · exact h3
  · rw [importDispatch, if_neg h1, if_neg h2, if_neg h3] at h
    exact absurd h (by decide)

theorem importDispatch_target_ne_ts (fp : List Char) :
    importDispatch (mjsTarget fp) ≠ ImportAction.typescript := by
  intro h
  have he := importDispatch_eq_ts h
  rw [mjsTarget, extnameL_joinL_mjs _ _ (basenameL_no_slash fp)] at he
  by_cases hb : basenameL fp = []
  · rw [if_pos hb] at he
    exact absurd he (by decide)
  · rw [if_neg hb] at he
    exact absurd he (by decide)

theorem importDispatch_out_ne_ts (fp : List Char) :
    importDispatch (tsOut fp) ≠ ImportAction.typescript := by
  intro h
  have he := importDispatch_eq_ts h
  rw [tsOut, extnameL_joinL_mjs _ _ (parseNameL_no_slash fp)] at he
  by_cases hb : parseNameL fp = []
  · rw [if_pos hb] at he
    exact absurd he (by decide)
  · rw [if_neg hb] at he
    exact absurd he (by decide)

theorem basenameL_target (fp : List Char) :
    basenameL (mjsTarget fp) = basenameL fp ++ ".mjs".data := by
  rw [mjsTarget]
  exact basenameL_joinL _ _ (append_mjs_ne_nil _)
    (no_slash_append (basenameL_no_slash fp) (by decide))

theorem basenameL_target_len (fp : List Char) :
    (basenameL (mjsTarget fp)).length = (basenameL fp).length + 4 := by
  rw [basenameL_target]
  simp

theorem basenameL_out (fp : List Char) :
    basenameL (tsOut fp) = parseNameL fp ++ ".mjs".data := by
  rw [tsOut]
  exact basenameL_joinL _ _ (append_mjs_ne_nil _)
    (no_slash_append (parseNameL_no_slash fp) (by decide))

theorem extOfBase_ts_len {b : List Char} (h : extOfBase b = ".ts".data) :
    4 ≤ b.length := by
  rw [extOfBase] at h
  by_cases hc : (b.reverse.takeWhile (fun c => c != '.')).length + 1 < b.length ∧
      b ≠ ['.', '.']
  · rw [if_pos hc] at h
    have hlen := congrArg List.length h
    simp only [List.length_cons, List.length_reverse] at hlen
    have := hc.1
    omega
  · rw [if_neg hc] at h
    exact absurd h (by decide)

theorem basenameL_out_len {fp : List Char} (h : extnameL fp = ".ts".data) :
    (basenameL (tsOut fp)).length = (basenameL fp).length + 1 := by
  rw [basenameL_out]
  rw [extnameL] at h
  have h4 := extOfBase_ts_len h
  have hname : (parseNameL fp).length = (basenameL fp).length - 3 := by
    rw [parseNameL, h, List.length_take]
    have h6 : (".ts".data).length = 3 := rfl
    rw [h6]
    exact Nat.min_eq_left (Nat.sub_le _ _)
  rw [List.length_append, hname]
  have h5 : (".mjs".data).length = 4 := rfl
  omega

theorem createdPaths_append (l1 l2 : List FsOp) :
    createdPaths (l1 ++ l2) = createdPaths l1 ++ createdPaths l2 := by
  induction l1 with
  | nil => rfl
  | cons op rest ih => cases op <;> simp [createdPaths, ih]

theorem rmCount_append (p : List Char) (l1 l2 : List FsOp) :
    rmCount p (l1 ++ l2) = rmCount p l1 + rmCount p l2 := by
  induction l1 with
  | nil => simp [rmCount]
  | cons op rest ih => cases op <;> (simp [rmCount, ih]; try omega)

theorem applyOps_cons (s : List Char → Bool) (op : FsOp) (ops : List FsOp) :
    applyOps s (op :: ops) = applyOps (applyOp s op) ops := rfl

theorem applyOps_append (s : List Char → Bool) (l1 l2 : List FsOp) :
    applyOps s (l1 ++ l2) = applyOps (applyOps s l1) l2 := by
  simp [applyOps, List.foldl_append]

theorem applyOps_rm_last (s : List Char → Bool) (ops : List FsOp) (t : List Char) :
    applyOps s (ops ++ [FsOp.rm t]) t = false := by
  rw [applyOps_append]
  simp [applyOps, applyOp]

theorem applyOps_rm_last_ne (s : List Char → Bool) (ops : List FsOp) {t a : List Char}
    (h : a ≠ t) : applyOps s (ops ++ [FsOp.rm t]) a = applyOps s ops a := by
  rw [applyOps_append]
  simp [applyOps, applyOp, h]

theorem importPathOps_untouched (E : Env) :
    ∀ fuel fp origin q, (basenameL q).length ≤ (basenameL fp).length →
      q ∉ createdPaths (importPathOps E fuel fp origin).1 ∧
      rmCount q (importPathOps E fuel fp origin).1 = 0 := by
  intro fuel
  induction fuel with
  | zero =>
    intro fp origin q _
    exact ⟨by simp [importPathOps, createdPaths], by simp [importPathOps, rmCount]⟩
  | succ n ih =>
    intro fp origin q hq
    cases hd : importDispatch fp
    case raw | markdown =>
      simp only [importPathOps, hd, createdPaths, rmCount, createdPaths_append, rmCount_append]
      have hlen := basenameL_target_len fp
      have hne : q ≠ mjsTarget fp := by
        intro he
        rw [he] at hq
        omega
      obtain ⟨hnotin, hrm0⟩ := ih (mjsTarget fp) origin q (by omega)
      constructor
      · intro hmem
        rcases List.mem_cons.mp hmem with he | hmem
        · exact hne he
        · rw [List.append_nil] at hmem
          exact hnotin hmem
      · rw [hrm0, if_neg (fun he => hne he.symm)]
    case typescript =>
      by_cases htsc : E.tscOk fp
      · simp only [importPathOps, hd, if_pos htsc, createdPaths, rmCount,
          createdPaths_append, rmCount_append]
        have hlen := basenameL_out_len (importDispatch_eq_ts hd)
        have hne : q ≠ tsOut fp := by
          intro he
          rw [he] at hq
          omega
        obtain ⟨hnotin, hrm0⟩ := ih (tsOut fp) fp q (by omega)
        constructor
        · intro hmem
          rcases List.mem_cons.mp hmem with he | hmem
          · exact hne he
          · rw [List.append_nil] at hmem
            exact hnotin hmem
        · rw [hrm0, if_neg (fun he => hne he.symm)]
      · simp [importPathOps, hd, if_neg htsc, createdPaths, rmCount]
    case moduleLoad =>
      simp [importPathOps, hd, createdPaths, rmCount]

theorem importPathOps_created (E : Env) :
    ∀ fuel fp origin a, a ∈ createdPaths (importPathOps E fuel fp origin).1 →
      (basenameL fp).length < (basenameL a).length ∧
      rmCount a (importPathOps E fuel fp origin).1 = 1 ∧
      ∀ s, applyOps s (importPathOps E fuel fp origin).1 a = false := by
  intro fuel
  induction fuel with
  | zero =>
    intro fp origin a ha
    simp [importPathOps, createdPaths] at ha
  | succ n ih =>
    intro fp origin a ha
    cases hd : importDispatch fp
    case raw | markdown =>
      simp only [importPathOps, hd, createdPaths, createdPaths_append,
        List.append_nil] at ha
      simp only [importPathOps, hd, createdPaths, rmCount, rmCount_append]
      have hlen := basenameL_target_len fp
      rcases List.mem_cons.mp ha with he | hmem
      · subst he
        have hrm0 :=
          (importPathOps_untouched E n (mjsTarget fp) origin (mjsTarget fp) (le_refl _)).2
        refine ⟨by omega, ?_, ?_⟩
        · rw [hrm0]
          simp
        · intro s
          rw [applyOps_cons, applyOps_cons, applyOps_rm_last]
      · obtain ⟨hlt, hrm1, happ⟩ := ih (mjsTarget fp) origin a hmem
        have hne : a ≠ mjsTarget fp := by
          intro he
          rw [he] at hlt
          omega
        refine ⟨by omega, ?_, ?_⟩
        · rw [hrm1, if_neg (fun he => hne he.symm)]
        · intro s
          rw [applyOps_cons, applyOps_cons, applyOps_rm_last_ne _ _ hne]
          exact happ _
    case typescript =>
      by_cases htsc : E.tscOk fp
      · simp only [importPathOps, hd, if_pos htsc, createdPaths, createdPaths_append,
          List.append_nil] at ha
        simp only [importPathOps, hd, if_pos htsc, createdPaths, rmCount, rmCount_append]
        have hlen := basenameL_out_len (importDispatch_eq_ts hd)
        rcases List.mem_cons.mp ha with he | hmem
        · subst he
          have hrm0 :=
            (importPathOps_untouched E n (tsOut fp) fp (tsOut fp) (le_refl _)).2
          refine ⟨by omega, ?_, ?_⟩
          · rw [hrm0]
            simp
          · intro s
            rw [applyOps_cons, applyOps_cons, applyOps_rm_last]
        · obtain ⟨hlt, hrm1, happ⟩ := ih (tsOut fp) fp a hmem
          have hne : a ≠ tsOut fp := by
            intro he
            rw [he] at hlt
            omega
          refine ⟨by omega, ?_, ?_⟩
          · rw [hrm1, if_neg (fun he => hne he.symm)]
          · intro s
            rw [applyOps_cons, applyOps_cons, applyOps_rm_last_ne _ _ hne]
            exact happ _
      · simp [importPathOps, hd, if_neg htsc, createdPaths] at ha
    case moduleLoad =>
      simp [importPathOps, hd, createdPaths] at ha

theorem importPathOps_load_origin (E : Env) :
    ∀ fuel fp origin p f d, importDispatch fp ≠ ImportAction.typescript →
      FsOp.load p f d ∈ (importPathOps E fuel fp origin).1 →
      f = E.resolvePath origin ∧ d = dirnameL (E.resolvePath origin) := by
  intro fuel
  induction fuel with
  | zero =>
    intro fp origin p f d _ hmem
    simp [importPathOps] at hmem
  | succ n ih =>
    intro fp origin p f d hts hmem
    cases hd : importDispatch fp
    case raw =>
      simp only [importPathOps, hd] at hmem
      rcases List.mem_cons.mp hmem with he | hmem
      · exact absurd he (by simp)
      rcases List.mem_cons.mp hmem with he | hmem
      · exact absurd he (by simp)
      rcases List.mem_append.mp hmem with hmem | hmem
      · exact ih _ origin p f d (importDispatch_target_ne_ts fp) hmem
      · simp at hmem
    case markdown =>
      simp only [importPathOps, hd] at hmem
      rcases List.mem_cons.mp hmem with he | hmem
      · exact absurd he (by simp)
      rcases List.mem_cons.mp hmem with he | hmem
      · exact absurd he (by simp)
      rcases List.mem_append.mp hmem with hmem | hmem
      · exact ih _ origin p f d (importDispatch_target_ne_ts fp) hmem
      · simp at hmem
    case typescript => exact absurd hd hts
    case moduleLoad =>
      simp only [importPathOps, hd] at hmem
      rcases List.mem_cons.mp hmem with he | hmem
      · injection he with h1 h2 h3
        exact ⟨h2, h3⟩
      · simp at hmem

/-! ## Claims about artifact cleanup and origin binding -/

/-- Claim C3: every artifact materialised by a resolution step (the write
target of the extensionless and markdown branches, the renamed TypeScript
compiler output, and the stdin script written by `writeAndImport`) is
deleted exactly once by the trace, and no longer exists once the step is
over — for every environment, hence on success and on failure of its
consumer alike, since the `rm` is awaited before the inner call's result. -/
theorem C3_artifact_cleanup (E : Env) (fuel : Nat)
    (fp origin script tmp o a : List Char) (s : List Char → Bool) :
    (a ∈ createdPaths (importPathOps E fuel fp origin).1 →
      rmCount a (importPathOps E fuel fp origin).1 = 1 ∧
      applyOps s (importPathOps E fuel fp origin).1 a = false) ∧
    (a ∈ createdPaths (writeAndImportOps E fuel script tmp o).1 →
      rmCount a (writeAndImportOps E fuel script tmp o).1 = 1 ∧
      applyOps s (writeAndImportOps E fuel script tmp o).1 a = false) := by
  constructor
  · intro ha
    obtain ⟨_, h1, h2⟩ := importPathOps_created E fuel fp origin a ha
    exact ⟨h1, h2 s⟩
  · intro ha
    simp only [writeAndImportOps, createdPaths, createdPaths_append,
      List.append_nil] at ha
    simp only [writeAndImportOps, createdPaths, rmCount, rmCount_append]
    rcases List.mem_cons.mp ha with rfl | hmem
    · have hrm0 := (importPathOps_untouched E fuel a o a (le_refl _)).2
      refine ⟨by rw [hrm0, if_pos rfl], ?_⟩
      rw [applyOps_cons, applyOps_rm_last]
    · obtain ⟨hlt, hrm1, happ⟩ := importPathOps_created E fuel tmp o a hmem
      have hne : a ≠ tmp := by
        intro he
        rw [he] at hlt
        omega
      refine ⟨by rw [hrm1, if_neg (fun he => hne he.symm)], ?_⟩
      rw [applyOps_cons, applyOps_rm_last_ne _ _ hne]
      exact happ _

/-- Closed instance of `C3_artifact_cleanup`: the markdown chain on
"/tmp/x.md" materialises "/tmp/x.md.mjs", deletes it exactly once, and
leaves it nonexistent; likewise the stdin chain on the temp script
"/tmp/r.mjs". -/
theorem C3_witness :
    (rmCount ("/tmp/x.md.mjs").data
        (importPathOps ⟨fun _ => true, fun _ => true, fun _ => [], fun p => p⟩ 3
          ("/tmp/x.md").data ("/tmp/x.md").data).1 = 1 ∧
      applyOps (fun _ => true)
        (importPathOps ⟨fun _ => true, fun _ => true, fun _ => [], fun p => p⟩ 3
          ("/tmp/x.md").data ("/tmp/x.md").data).1 ("/tmp/x.md.mjs").data = false) ∧
    (rmCount ("/tmp/r.mjs").data
        (writeAndImportOps ⟨fun _ => true, fun _ => true, fun _ => [], fun p => p⟩ 3
          [] ("/tmp/r.mjs").data ("/cwd/stdin.mjs").data).1 = 1 ∧
      applyOps (fun _ => true)
        (writeAndImportOps ⟨fun _ => true, fun _ => true, fun _ => [], fun p => p⟩ 3
          [] ("/tmp/r.mjs").data ("/cwd/stdin.mjs").data).1 ("/tmp/r.mjs").data = false) :=
  ⟨(C3_artifact_cleanup ⟨fun _ => true, fun _ => true, fun _ => [], fun p => p⟩ 3
      ("/tmp/x.md").data ("/tmp/x.md").data [] ("/tmp/r.mjs").data ("/cwd/stdin.mjs").data
      ("/tmp/x.md.mjs").data (fun _ => true)).1 (by decide),
    (C3_artifact_cleanup ⟨fun _ => true, fun _ => true, fun _ => [], fun p => p⟩ 3
      ("/tmp/x.md").data ("/tmp/x.md").data [] ("/tmp/r.mjs").data ("/cwd/stdin.mjs").data
      ("/tmp/r.mjs").data (fun _ => true)).2 (by decide)⟩

/-- Claim C8: in every load operation the resolver performs, the two
context values bound to the global `__filename` and `__dirname` are the
resolved original origin and its directory: for a top-level `importPath`
call (where the origin defaults to the supplied path, covering the
extensionless, markdown, TypeScript and direct-`.mjs` chains), and for a
stdin-style `writeAndImport` of a materialised ".mjs" script with a
synthetic origin — never an intermediate artifact path. -/
theorem C8_origin_binding (E : Env) :
    (∀ fuel fp p f d, FsOp.load p f d ∈ (importPathOps E fuel fp fp).1 →
      f = E.resolvePath fp ∧ d = dirnameL (E.resolvePath fp)) ∧
    (∀ fuel script tmp origin p f d, extnameL tmp = ".mjs".data →
      FsOp.load p f d ∈ (writeAndImportOps E fuel script tmp origin).1 →
      f = E.resolvePath origin ∧ d = dirnameL (E.resolvePath origin)) := by
  constructor
  · intro fuel fp p f d hmem
    cases hd : importDispatch fp
    case typescript =>
      cases fuel with
      | zero => simp [importPathOps] at hmem
      | succ n =>
        simp only [importPathOps, hd] at hmem
        by_cases htsc : E.tscOk fp
        · rw [if_pos htsc] at hmem
          rcases List.mem_cons.mp hmem with he | hmem
          · exact absurd he (by simp)
          rcases List.mem_cons.mp hmem with he | hmem
          · exact absurd he (by simp)
          rcases List.mem_append.mp hmem with hmem | hmem
          · exact importPathOps_load_origin E n _ fp p f d (importDispatch_out_ne_ts fp) hmem
          · simp at hmem
        · rw [if_neg htsc] at hmem
          simp at hmem
    case raw =>
      exact importPathOps_load_origin E fuel fp fp p f d
        (fun hc => ImportAction.noConfusion (hd ▸ hc)) hmem
    case markdown =>
      exact importPathOps_load_origin E fuel fp fp p f d
        (fun hc => ImportAction.noConfusion (hd ▸ hc)) hmem
    case moduleLoad =>
      exact importPathOps_load_origin E fuel fp fp p f d
        (fun hc => ImportAction.noConfusion (hd ▸ hc)) hmem
  · intro fuel script tmp origin p f d hext hmem
    have hdisp : importDispatch tmp = ImportAction.moduleLoad := by
      rw [importDispatch, hext]
      rfl
    simp only [writeAndImportOps] at hmem
    rcases List.mem_cons.mp hmem with he | hmem
    · exact absurd he (by simp)
    rcases List.mem_append.mp hmem with hmem | hmem
    · exact importPathOps_load_origin E fuel tmp origin p f d
        (fun hc => ImportAction.noConfusion (hdisp ▸ hc)) hmem
    · simp at hmem

/-- Closed instance of `C8_origin_binding`: the markdown chain on
"/a/x.md" loads the materialised module with `__filename` bound to
"/a/x.md" and `__dirname` to "/a"; the stdin chain on the temp script
"/tmp/r.mjs" with origin "/cwd/stdin.mjs" binds "/cwd/stdin.mjs" and
"/cwd". -/
theorem C8_witness :
    (FsOp.load ("/a/x.md.mjs").data ("/a/x.md").data ("/a").data ∈
      (importPathOps ⟨fun _ => true, fun _ => true, fun _ => [], fun p => p⟩ 3
        ("/a/x.md").data ("/a/x.md").data).1 ∧
      (("/a/x.md").data = ("/a/x.md").data ∧ ("/a").data = ("/a").data)) ∧
    (FsOp.load ("/tmp/r.mjs").data ("/cwd/stdin.mjs").data ("/cwd").data ∈
      (writeAndImportOps ⟨fun _ => true, fun _ => true, fun _ => [], fun p => p⟩ 3
        [] ("/tmp/r.mjs").data ("/cwd/stdin.mjs").data).1 ∧
      (("/cwd/stdin.mjs").data = ("/cwd/stdin.mjs").data ∧
        ("/cwd").data = ("/cwd").data)) :=
  ⟨⟨by decide,
    (C8_origin_binding ⟨fun _ => true, fun _ => true, fun _ => [], fun p => p⟩).1 3
      ("/a/x.md").data ("/a/x.md.mjs").data ("/a/x.md").data ("/a").data (by decide)⟩,
   ⟨by decide,
    (C8_origin_binding ⟨fun _ => true, fun _ => true, fun _ => [], fun p => p⟩).2 3
      [] ("/tmp/r.mjs").data ("/cwd/stdin.mjs").data ("/tmp/r.mjs").data
      ("/cwd/stdin.mjs").data ("/cwd").data (by decide) (by decide)⟩⟩

end Yzx
